import Mathlib

/-
Shallow embedding of the go-nuts sharded concurrent map
(src/unnamed/part_009) and the state transition log StatesMan
(gonuts statesman code), with theorems about their specification.

Machine integers are modelled as Nat with explicit reduction modulo 2^32
where Go's uint32 overflows.  Go's built-in map is modelled as an
association list with replace-on-insert semantics.  Locks and channels
are concurrency primitives with no sequential content and are omitted;
all operations are modelled as pure state transformers.
-/

set_option autoImplicit false

namespace GoNuts

/-! ### Bytes of a string

Go's `fnv32` iterates the UTF-8 bytes of its string argument
(`key[i]` for `i < len(key)`).  `charUTF8` is the standard UTF-8
encoding of a code point, `strBytes` the byte sequence of a string. -/

def charUTF8 (c : Nat) : List Nat :=
  if c < 128 then [c]
  else if c < 2048 then [192 + c / 64, 128 + c % 64]
  else if c < 65536 then [224 + c / 4096, 128 + (c / 64) % 64, 128 + c % 64]
  else [240 + c / 262144, 128 + (c / 4096) % 64, 128 + (c / 64) % 64, 128 + c % 64]

def strBytes (s : String) : List Nat :=
  s.data.foldr (fun c acc => charUTF8 c.toNat ++ acc) []

/-! ### The hash function

Source (part_009):
```
func fnv32(key string) uint32 {
    hash := uint32(2166136261)
    const prime32 = uint32(16777619)
    for i := 0; i < len(key); i++ {
        hash *= prime32
        hash ^= uint32(key[i])
    }
    return hash
}
```
The loop multiplies first, then xors the byte in. -/

def fnv32Loop (hash : Nat) : List Nat → Nat
  | [] => hash
  | b :: bs => fnv32Loop (((hash * 16777619) % 4294967296) ^^^ b) bs

def fnv32 (key : List Nat) : Nat :=
  fnv32Loop 2166136261 key

/-- Modelled from the spec: "standard FNV-1a with 32-bit offset basis
2166136261 and prime 16777619", where FNV-1a xors the byte into the hash
and then multiplies by the prime. -/
def fnv1a32Spec (bytes : List Nat) : Nat :=
  bytes.foldl (fun h b => ((h ^^^ b) * 16777619) % 4294967296) 2166136261

/-- The standard 32-bit FNV-1 digest: multiply by the prime, then xor the
byte in, starting from the same offset basis. -/
def fnv1_32Spec (bytes : List Nat) : Nat :=
  bytes.foldl (fun h b => ((h * 16777619) % 4294967296) ^^^ b) 2166136261

theorem fnv32Loop_eq_foldl (bs : List Nat) (h : Nat) :
    fnv32Loop h bs = bs.foldl (fun a b => ((a * 16777619) % 4294967296) ^^^ b) h := by
  induction bs generalizing h with
  | nil => rfl
  | cons b bs ih => simp [fnv32Loop, List.foldl, ih]

/-! ### Association lists modelling Go's built-in `map`

`goGet`, `goSet`, `goDelete` model `m[k]`, `m[k] = v` and `delete(m, k)`
on a Go map whose entries are listed in some order. -/

def goGet {K V : Type} [DecidableEq K] (k : K) : List (K × V) → Option V
  | [] => none
  | (k', v) :: rest => if k' = k then some v else goGet k rest

def goSet {K V : Type} [DecidableEq K] (k : K) (v : V) : List (K × V) → List (K × V)
  | [] => [(k, v)]
  | (k', v') :: rest => if k' = k then (k, v) :: rest else (k', v') :: goSet k v rest

def goDelete {K V : Type} [DecidableEq K] (k : K) : List (K × V) → List (K × V)
  | [] => []
  | (k', v') :: rest => if k' = k then rest else (k', v') :: goDelete k rest

theorem goGet_goSet_self {K V : Type} [DecidableEq K] (k : K) (v : V) (l : List (K × V)) :
    goGet k (goSet k v l) = some v := by
  induction l with
  | nil => simp [goSet, goGet]
  | cons p rest ih =>
    by_cases hp : p.1 = k
    · simp [goSet, hp, goGet]
    · simp [goSet, hp, goGet, ih]

theorem goGet_goSet_ne {K V : Type} [DecidableEq K] (k k' : K) (v : V) (l : List (K × V))
    (h : k' ≠ k) : goGet k (goSet k' v l) = goGet k l := by
  induction l with
  | nil => simp [goSet, goGet, h]
  | cons p rest ih =>
    by_cases hp : p.1 = k'
    · simp [goSet, hp, goGet, h]
    · by_cases hk : p.1 = k
      · simp [goSet, hp, goGet, hk, Ne.symm h]
      · simp [goSet, hp, goGet, hk, ih]

theorem goGet_goDelete_ne {K V : Type} [DecidableEq K] (k k' : K) (l : List (K × V))
    (h : k' ≠ k) : goGet k (goDelete k' l) = goGet k l := by
  induction l with
  | nil => simp [goDelete]
  | cons p rest ih =>
    by_cases hp : p.1 = k'
    · simp [goDelete, hp, goGet, h]
    · by_cases hk : p.1 = k
      · simp [goDelete, hp, goGet, hk, Ne.symm h]
      · simp [goDelete, hp, goGet, hk, ih]

theorem length_goSet_of_goGet_none {K V : Type} [DecidableEq K] (k : K) (v : V)
    (l : List (K × V)) (h : goGet k l = none) :
    (goSet k v l).length = l.length + 1 := by
  induction l with
  | nil => simp [goSet]
  | cons p rest ih =>
    by_cases hp : p.1 = k
    · simp [goGet, hp] at h
    · simp [goGet, hp] at h
      simp [goSet, hp, ih h]

/-! ### List getD/set helper lemmas -/

theorem getD_set_self {α : Type} (l : List α) (i : Nat) (a d : α) (h : i < l.length) :
    (l.set i a).getD i d = a := by
  induction l generalizing i with
  | nil => simp at h
  | cons x xs ih =>
    cases i with
    | zero => rfl
    | succ j => exact ih j (by simpa using h)

theorem getD_set_ne {α : Type} (l : List α) (i j : Nat) (a d : α) (h : i ≠ j) :
    (l.set i a).getD j d = l.getD j d := by
  induction l generalizing i j with
  | nil => simp [List.set]
  | cons x xs ih =>
    cases i with
    | zero =>
      cases j with
      | zero => exact absurd rfl h
      | succ j' => rfl
    | succ i' =>
      cases j with
      | zero => rfl
      | succ j' => exact ih i' j' (fun hc => h (by rw [hc]))

/-! ### The sharded concurrent map

Source (part_009): `ConcurrentMap` holds `numShards` shards, each an
independent Go map.  `getShard` picks the shard at index
`fnv32(fmt.Sprintf("%v", key)) % uint32(numShards)`.  The formatting
function `fmt.Sprintf("%v", ·)` is passed explicitly as `γ : K → String`
(for `K = String` it is the identity). -/

structure ConcurrentMap (K V : Type) where
  shards : List (List (K × V))

/-- Source constructor: a non-positive shard count is normalized to the
default of 32 shards; all shards start empty. -/
def NewConcurrentMap (K V : Type) (numShards : Int) : ConcurrentMap K V :=
  let n : Nat := if numShards ≤ 0 then 32 else numShards.toNat
  ⟨List.replicate n []⟩

/-- Index of the shard `getShard` returns for `key`. -/
def ConcurrentMap.shardIdx {K V : Type} (γ : K → String) (cm : ConcurrentMap K V)
    (key : K) : Nat :=
  fnv32 (strBytes (γ key)) % cm.shards.length

def ConcurrentMap.Set {K V : Type} [DecidableEq K] (γ : K → String)
    (cm : ConcurrentMap K V) (key : K) (value : V) : ConcurrentMap K V :=
  ⟨cm.shards.set (cm.shardIdx γ key)
    (goSet key value (cm.shards.getD (cm.shardIdx γ key) []))⟩

def ConcurrentMap.Get {K V : Type} [DecidableEq K] (γ : K → String)
    (cm : ConcurrentMap K V) (key : K) : Option V :=
  goGet key (cm.shards.getD (cm.shardIdx γ key) [])

def ConcurrentMap.Delete {K V : Type} [DecidableEq K] (γ : K → String)
    (cm : ConcurrentMap K V) (key : K) : ConcurrentMap K V :=
  ⟨cm.shards.set (cm.shardIdx γ key)
    (goDelete key (cm.shards.getD (cm.shardIdx γ key) []))⟩

/-- Source `Len`: walks the shards and sums the per-shard entry counts. -/
def ConcurrentMap.Len {K V : Type} (cm : ConcurrentMap K V) : Nat :=
  cm.shards.foldl (fun count shard => count + shard.length) 0

/-- Source `GetOrSet`: returns `((existing, true), unchanged)` when the key
is present, otherwise inserts and returns `((value, false), updated)`. -/
def ConcurrentMap.GetOrSet {K V : Type} [DecidableEq K] (γ : K → String)
    (cm : ConcurrentMap K V) (key : K) (value : V) :
    (V × Bool) × ConcurrentMap K V :=
  match goGet key (cm.shards.getD (cm.shardIdx γ key) []) with
  | some val => ((val, true), cm)
  | none =>
    ((value, false),
      ⟨cm.shards.set (cm.shardIdx γ key)
        (goSet key value (cm.shards.getD (cm.shardIdx γ key) []))⟩)

/-! ### Basic lemmas about the map operations -/

theorem ConcurrentMap.length_shards_Set {K V : Type} [DecidableEq K] (γ : K → String)
    (cm : ConcurrentMap K V) (k : K) (v : V) :
    (cm.Set γ k v).shards.length = cm.shards.length := by
  simp [ConcurrentMap.Set]

theorem ConcurrentMap.length_shards_Delete {K V : Type} [DecidableEq K] (γ : K → String)
    (cm : ConcurrentMap K V) (k : K) :
    (cm.Delete γ k).shards.length = cm.shards.length := by
  simp [ConcurrentMap.Delete]

theorem ConcurrentMap.GetOrSet_of_get_none {K V : Type} [DecidableEq K] (γ : K → String)
    (cm : ConcurrentMap K V) (k : K) (v : V) (h : cm.Get γ k = none) :
    cm.GetOrSet γ k v = ((v, false), cm.Set γ k v) := by
  unfold ConcurrentMap.Get at h
  unfold ConcurrentMap.GetOrSet ConcurrentMap.Set
  rw [h]

theorem ConcurrentMap.GetOrSet_of_get_some {K V : Type} [DecidableEq K] (γ : K → String)
    (cm : ConcurrentMap K V) (k : K) (v w : V) (h : cm.Get γ k = some w) :
    cm.GetOrSet γ k v = ((w, true), cm) := by
  unfold ConcurrentMap.Get at h
  unfold ConcurrentMap.GetOrSet
  rw [h]

theorem ConcurrentMap.length_shards_GetOrSet {K V : Type} [DecidableEq K] (γ : K → String)
    (cm : ConcurrentMap K V) (k : K) (v : V) :
    (cm.GetOrSet γ k v).2.shards.length = cm.shards.length := by
  rcases hc : cm.Get γ k with _ | w
  · rw [ConcurrentMap.GetOrSet_of_get_none γ cm k v hc]
    exact cm.length_shards_Set γ k v
  · rw [ConcurrentMap.GetOrSet_of_get_some γ cm k v w hc]

theorem ConcurrentMap.Get_Set_self {K V : Type} [DecidableEq K] (γ : K → String)
    (cm : ConcurrentMap K V) (k : K) (v : V) (hlen : 0 < cm.shards.length) :
    (cm.Set γ k v).Get γ k = some v := by
  unfold ConcurrentMap.Get ConcurrentMap.Set ConcurrentMap.shardIdx
  simp only [List.length_set]
  rw [getD_set_self _ _ _ _ (Nat.mod_lt _ hlen)]
  exact goGet_goSet_self k v _

theorem ConcurrentMap.Get_Set_ne {K V : Type} [DecidableEq K] (γ : K → String)
    (cm : ConcurrentMap K V) (k' k : K) (v : V) (h : k' ≠ k) :
    (cm.Set γ k' v).Get γ k = cm.Get γ k := by
  unfold ConcurrentMap.Get ConcurrentMap.Set ConcurrentMap.shardIdx
  simp only [List.length_set]
  rcases Nat.eq_zero_or_pos cm.shards.length with hlen | hlen
  · rw [List.eq_nil_of_length_eq_zero hlen]
    rfl
  · by_cases hii : fnv32 (strBytes (γ k')) % cm.shards.length
        = fnv32 (strBytes (γ k)) % cm.shards.length
    · rw [← hii, getD_set_self _ _ _ _ (Nat.mod_lt _ hlen), hii]
      exact goGet_goSet_ne k k' v _ h
    · rw [getD_set_ne _ _ _ _ _ hii]

theorem ConcurrentMap.Get_Delete_ne {K V : Type} [DecidableEq K] (γ : K → String)
    (cm : ConcurrentMap K V) (k' k : K) (h : k' ≠ k) :
    (cm.Delete γ k').Get γ k = cm.Get γ k := by
  unfold ConcurrentMap.Get ConcurrentMap.Delete ConcurrentMap.shardIdx
  simp only [List.length_set]
  rcases Nat.eq_zero_or_pos cm.shards.length with hlen | hlen
  · rw [List.eq_nil_of_length_eq_zero hlen]
    rfl
  · by_cases hii : fnv32 (strBytes (γ k')) % cm.shards.length
        = fnv32 (strBytes (γ k)) % cm.shards.length
    · rw [← hii, getD_set_self _ _ _ _ (Nat.mod_lt _ hlen), hii]
      exact goGet_goDelete_ne k k' _ h
    · rw [getD_set_ne _ _ _ _ _ hii]

theorem ConcurrentMap.Get_GetOrSet_ne {K V : Type} [DecidableEq K] (γ : K → String)
    (cm : ConcurrentMap K V) (k' k : K) (v : V) (h : k' ≠ k) :
    ((cm.GetOrSet γ k' v).2).Get γ k = cm.Get γ k := by
  rcases hc : cm.Get γ k' with _ | w
  · rw [ConcurrentMap.GetOrSet_of_get_none γ cm k' v hc]
    exact ConcurrentMap.Get_Set_ne γ cm k' k v h
  · rw [ConcurrentMap.GetOrSet_of_get_some γ cm k' v w hc]

/-! ### Len lemmas -/

theorem foldl_add_length {α : Type} (l : List (List α)) (c : Nat) :
    List.foldl (fun count shard => count + shard.length) c l
      = c + (l.map List.length).sum := by
  induction l generalizing c with
  | nil => simp
  | cons x xs ih => simp [List.foldl, ih, Nat.add_assoc]

theorem ConcurrentMap.Len_eq_sum {K V : Type} (cm : ConcurrentMap K V) :
    cm.Len = (cm.shards.map List.length).sum := by
  unfold ConcurrentMap.Len
  rw [foldl_add_length]
  simp

theorem sum_lengths_set {α : Type} (l : List (List α)) (i : Nat) (a : List α)
    (h : i < l.length) :
    ((l.set i a).map List.length).sum + (l.getD i []).length
      = (l.map List.length).sum + a.length := by
  induction l generalizing i with
  | nil => simp at h
  | cons x xs ih =>
    cases i with
    | zero => simp [Nat.add_comm, Nat.add_assoc, Nat.add_left_comm]
    | succ j =>
      have hj : j < xs.length := by simpa using h
      have := ih j hj
      simp only [List.set, List.map, List.sum_cons, List.getD, List.getElem?_cons_succ]
      change _ + (xs.getD j []).length = _
      omega

theorem ConcurrentMap.Len_Set_of_get_none {K V : Type} [DecidableEq K] (γ : K → String)
    (cm : ConcurrentMap K V) (k : K) (v : V) (hlen : 0 < cm.shards.length)
    (h : cm.Get γ k = none) :
    (cm.Set γ k v).Len = cm.Len + 1 := by
  unfold ConcurrentMap.Get at h
  unfold ConcurrentMap.Set
  rw [ConcurrentMap.Len_eq_sum, ConcurrentMap.Len_eq_sum]
  dsimp only
  have hi : cm.shardIdx γ k < cm.shards.length := Nat.mod_lt _ hlen
  have hsum := sum_lengths_set cm.shards (cm.shardIdx γ k)
    (goSet k v (cm.shards.getD (cm.shardIdx γ k) [])) hi
  have hins := length_goSet_of_goGet_none k v
    (cm.shards.getD (cm.shardIdx γ k) []) h
  omega

/-! ### Sequences of map operations -/

inductive MapOp (K V : Type) where
  | setOp (k : K) (v : V)
  | getOp (k : K)
  | deleteOp (k : K)

def MapOp.key {K V : Type} : MapOp K V → K
  | .setOp k _ => k
  | .getOp k => k
  | .deleteOp k => k

/-- State effect of one operation: `Set` and `Delete` mutate, `Get` reads
the map without changing it. -/
def MapOp.run {K V : Type} [DecidableEq K] (γ : K → String) (cm : ConcurrentMap K V) :
    MapOp K V → ConcurrentMap K V
  | .setOp k v => cm.Set γ k v
  | .getOp _ => cm
  | .deleteOp k => cm.Delete γ k

def runMapOps {K V : Type} [DecidableEq K] (γ : K → String) (cm : ConcurrentMap K V)
    (ops : List (MapOp K V)) : ConcurrentMap K V :=
  ops.foldl (fun m op => MapOp.run γ m op) cm

theorem Get_MapOp_run_ne {K V : Type} [DecidableEq K] (γ : K → String)
    (cm : ConcurrentMap K V) (op : MapOp K V) (k : K) (h : op.key ≠ k) :
    (MapOp.run γ cm op).Get γ k = cm.Get γ k := by
  cases op with
  | setOp k' v => exact ConcurrentMap.Get_Set_ne γ cm k' k v h
  | getOp k' => rfl
  | deleteOp k' => exact ConcurrentMap.Get_Delete_ne γ cm k' k h

theorem Get_runMapOps_frame {K V : Type} [DecidableEq K] (γ : K → String) (k : K) :
    ∀ (ops : List (MapOp K V)) (cm : ConcurrentMap K V),
      (∀ op ∈ ops, MapOp.key op ≠ k) →
      (runMapOps γ cm ops).Get γ k = cm.Get γ k := by
  intro ops
  induction ops with
  | nil => intro cm _; rfl
  | cons op rest ih =>
    intro cm hops
    have hstep : runMapOps γ cm (op :: rest) = runMapOps γ (MapOp.run γ cm op) rest := rfl
    rw [hstep, ih (MapOp.run γ cm op) (fun o ho => hops o (List.mem_cons_of_mem _ ho))]
    exact Get_MapOp_run_ne γ cm op k (hops op (List.mem_cons_self _ _))

/-- C3: after `Set(k, v)`, `Get(k)` returns `(v, true)` and continues to do
so after any further `Set`/`Get`/`Delete` operations whose key differs
from `k`. -/
theorem Get_after_Set_stable_under_other_keys {K V : Type} [DecidableEq K]
    (γ : K → String) (cm : ConcurrentMap K V) (k : K) (v : V)
    (ops : List (MapOp K V)) (hlen : 0 < cm.shards.length)
    (hops : ∀ op ∈ ops, MapOp.key op ≠ k) :
    (runMapOps γ (cm.Set γ k v) ops).Get γ k = some v := by
  rw [Get_runMapOps_frame γ k ops (cm.Set γ k v) hops]
  exact ConcurrentMap.Get_Set_self γ cm k v hlen

theorem Get_after_Set_stable_under_other_keys_witness :
    0 < (NewConcurrentMap String Nat 4).shards.length ∧
    (∀ op ∈ [MapOp.setOp "b" 2, MapOp.getOp "c", MapOp.deleteOp "b"],
      MapOp.key op ≠ "a") ∧
    (runMapOps (fun s => s)
      ((NewConcurrentMap String Nat 4).Set (fun s => s) "a" 1)
      [MapOp.setOp "b" 2, MapOp.getOp "c", MapOp.deleteOp "b"]).Get
        (fun s => s) "a" = some 1 :=
  ⟨by decide, by decide,
    Get_after_Set_stable_under_other_keys (fun s => s)
      (NewConcurrentMap String Nat 4) "a" 1
      [MapOp.setOp "b" 2, MapOp.getOp "c", MapOp.deleteOp "b"]
      (by decide) (by decide)⟩

/-- C9: for distinct keys `k1 ≠ k2` (same shard or not), `Set(k1, v)` and
`Delete(k1)` leave `Get(k2)` unchanged. -/
theorem Set_Delete_frame_other_key {K V : Type} [DecidableEq K]
    (γ : K → String) (cm : ConcurrentMap K V) (k1 k2 : K) (v : V)
    (h : k1 ≠ k2) :
    (cm.Set γ k1 v).Get γ k2 = cm.Get γ k2 ∧
    (cm.Delete γ k1).Get γ k2 = cm.Get γ k2 :=
  ⟨ConcurrentMap.Get_Set_ne γ cm k1 k2 v h,
   ConcurrentMap.Get_Delete_ne γ cm k1 k2 h⟩

theorem Set_Delete_frame_other_key_witness :
    ("a" : String) ≠ "b" ∧
    ((((NewConcurrentMap String Nat 2).Set (fun s => s) "b" 7).Set
        (fun s => s) "a" 1).Get (fun s => s) "b"
      = ((NewConcurrentMap String Nat 2).Set (fun s => s) "b" 7).Get
          (fun s => s) "b" ∧
     (((NewConcurrentMap String Nat 2).Set (fun s => s) "b" 7).Delete
        (fun s => s) "a").Get (fun s => s) "b"
      = ((NewConcurrentMap String Nat 2).Set (fun s => s) "b" 7).Get
          (fun s => s) "b") :=
  ⟨by decide,
    Set_Delete_frame_other_key (fun s => s)
      ((NewConcurrentMap String Nat 2).Set (fun s => s) "b" 7)
      "a" "b" 1 (by decide)⟩

/-- C4: `GetOrSet(k, v1)` on an absent key returns `(v1, false)` and stores
`v1`; a subsequent `GetOrSet(k, v2)` with any `v2` returns `(v1, true)`
and leaves the map (hence the stored value) unchanged. -/
theorem GetOrSet_first_writer_wins {K V : Type} [DecidableEq K]
    (γ : K → String) (cm : ConcurrentMap K V) (k : K) (v1 : V)
    (hlen : 0 < cm.shards.length) (habs : cm.Get γ k = none) :
    (cm.GetOrSet γ k v1).1 = (v1, false) ∧
    ((cm.GetOrSet γ k v1).2).Get γ k = some v1 ∧
    ∀ v2 : V, ((cm.GetOrSet γ k v1).2).GetOrSet γ k v2
      = ((v1, true), (cm.GetOrSet γ k v1).2) := by
  rw [ConcurrentMap.GetOrSet_of_get_none γ cm k v1 habs]
  refine ⟨rfl, ConcurrentMap.Get_Set_self γ cm k v1 hlen, ?_⟩
  intro v2
  exact ConcurrentMap.GetOrSet_of_get_some γ (cm.Set γ k v1) k v2 v1
    (ConcurrentMap.Get_Set_self γ cm k v1 hlen)

theorem GetOrSet_first_writer_wins_witness :
    0 < (NewConcurrentMap String Nat 4).shards.length ∧
    (NewConcurrentMap String Nat 4).Get (fun s => s) "a" = none ∧
    (((NewConcurrentMap String Nat 4).GetOrSet (fun s => s) "a" 1).1 = (1, false) ∧
     (((NewConcurrentMap String Nat 4).GetOrSet (fun s => s) "a" 1).2).Get
        (fun s => s) "a" = some 1 ∧
     ∀ v2 : Nat,
       (((NewConcurrentMap String Nat 4).GetOrSet (fun s => s) "a" 1).2).GetOrSet
          (fun s => s) "a" v2
        = ((1, true), ((NewConcurrentMap String Nat 4).GetOrSet (fun s => s) "a" 1).2)) :=
  ⟨by decide, by decide,
    GetOrSet_first_writer_wins (fun s => s)
      (NewConcurrentMap String Nat 4) "a" 1 (by decide) (by decide)⟩

/-! ### Len after distinct inserts -/

def setList {K V : Type} [DecidableEq K] (γ : K → String) (cm : ConcurrentMap K V)
    (pairs : List (K × V)) : ConcurrentMap K V :=
  pairs.foldl (fun m p => m.Set γ p.1 p.2) cm

theorem getD_replicate {α : Type} (a : α) :
    ∀ (m i : Nat), (List.replicate m a).getD i a = a := by
  intro m
  induction m with
  | zero => intro i; rfl
  | succ m ih =>
    intro i
    cases i with
    | zero => rfl
    | succ j => exact ih j

theorem Len_setList {K V : Type} [DecidableEq K] (γ : K → String) :
    ∀ (pairs : List (K × V)) (cm : ConcurrentMap K V),
      0 < cm.shards.length →
      (∀ p ∈ pairs, cm.Get γ p.1 = none) →
      (pairs.map Prod.fst).Nodup →
      (setList γ cm pairs).Len = cm.Len + pairs.length := by
  intro pairs
  induction pairs with
  | nil => intro cm _ _ _; rfl
  | cons p rest ih =>
    intro cm hlen habs hnd
    have hnd' : (p.1 :: rest.map Prod.fst).Nodup := by simpa using hnd
    have hhead : p.1 ∉ rest.map Prod.fst := (List.nodup_cons.mp hnd').1
    have hstep : setList γ cm (p :: rest) = setList γ (cm.Set γ p.1 p.2) rest := rfl
    have h1 : 0 < (cm.Set γ p.1 p.2).shards.length := by
      rw [cm.length_shards_Set γ p.1 p.2]; exact hlen
    have h2 : ∀ q ∈ rest, (cm.Set γ p.1 p.2).Get γ q.1 = none := by
      intro q hq
      have hne : p.1 ≠ q.1 := by
        intro hc
        exact hhead (hc ▸ List.mem_map_of_mem Prod.fst hq)
      rw [ConcurrentMap.Get_Set_ne γ cm p.1 q.1 p.2 hne]
      exact habs q (List.mem_cons_of_mem _ hq)
    have h3 : (rest.map Prod.fst).Nodup := (List.nodup_cons.mp hnd').2
    rw [hstep, ih (cm.Set γ p.1 p.2) h1 h2 h3,
      ConcurrentMap.Len_Set_of_get_none γ cm p.1 p.2 hlen
        (habs p (List.mem_cons_self _ _))]
    simp [Nat.add_assoc, Nat.add_comm, Nat.add_left_comm]

theorem length_shards_NewConcurrentMap_pos (K V : Type) (n : Int) :
    0 < (NewConcurrentMap K V n).shards.length := by
  unfold NewConcurrentMap
  dsimp only
  rw [List.length_replicate]
  by_cases h : n ≤ 0
  · simp [h]
  · simp only [h, if_false]
    omega

theorem Get_NewConcurrentMap {K V : Type} [DecidableEq K] (γ : K → String)
    (n : Int) (k : K) : (NewConcurrentMap K V n).Get γ k = none := by
  unfold ConcurrentMap.Get NewConcurrentMap
  dsimp only
  rw [getD_replicate]
  rfl

theorem Len_NewConcurrentMap (K V : Type) (n : Int) :
    (NewConcurrentMap K V n).Len = 0 := by
  rw [ConcurrentMap.Len_eq_sum]
  unfold NewConcurrentMap
  dsimp only
  simp

/-- C8: starting from a fresh map, setting N pairwise-distinct keys (and
doing nothing else) makes `Len()` return exactly N. -/
theorem Len_after_distinct_Sets {K V : Type} [DecidableEq K] (γ : K → String)
    (n : Int) (pairs : List (K × V)) (hnd : (pairs.map Prod.fst).Nodup) :
    (setList γ (NewConcurrentMap K V n) pairs).Len = pairs.length := by
  rw [Len_setList γ pairs (NewConcurrentMap K V n)
    (length_shards_NewConcurrentMap_pos K V n)
    (fun p _ => Get_NewConcurrentMap γ n p.1) hnd,
    Len_NewConcurrentMap]
  exact Nat.zero_add _

theorem Len_after_distinct_Sets_witness :
    (([("a", 1), ("b", 2), ("c", 3)] : List (String × Nat)).map Prod.fst).Nodup ∧
    (setList (fun s => s) (NewConcurrentMap String Nat 4)
      [("a", 1), ("b", 2), ("c", 3)]).Len = 3 :=
  ⟨by decide,
    Len_after_distinct_Sets (fun s => s) 4 [("a", 1), ("b", 2), ("c", 3)]
      (by decide)⟩

/-! ### The hash is FNV-1, not FNV-1a -/

/-- C2 counterexample: on the one-byte key "a" the hash computed by the
source's `fnv32` (multiply by the prime, then xor the byte) differs from
the standard FNV-1a digest (xor the byte, then multiply), so `fnv32` does
not compute standard FNV-1a. -/
theorem fnv32_ne_fnv1a_at_a :
    fnv32 (strBytes "a") = 84696446 ∧
    fnv1a32Spec (strBytes "a") = 3826002220 ∧
    fnv32 (strBytes "a") ≠ fnv1a32Spec (strBytes "a") := by
  refine ⟨by decide, by decide, by decide⟩

/-- C2 amended: for every key string, `fnv32` computes the standard 32-bit
FNV-1 digest of its UTF-8 bytes — offset basis 2166136261 and prime
16777619, but multiplying by the prime before xoring each byte in
(FNV-1 order, not the FNV-1a order of xor-then-multiply). -/
theorem fnv32_eq_fnv1_32 (s : String) :
    fnv32 (strBytes s) = fnv1_32Spec (strBytes s) := by
  unfold fnv32 fnv1_32Spec
  exact fnv32Loop_eq_foldl (strBytes s) 2166136261

/-! ### The state transition log (StatesMan)

Source (gonuts statesman code): `StateString` is a string type with eight
recognized constants plus the empty sentinel.  `StatesMan` owns an
append-only log of state changes, a current-state table (a Go map from
subsystem name to its latest to-state) and a notification channel.  The
mutex and the channel are concurrency primitives and are omitted; the
`Data map[string]any` payload is modelled by an opaque type parameter. -/

abbrev StateString := String

def StateStringEmpty : StateString := ""
def StateStringCreated : StateString := "created"
def StateStringStarted : StateString := "started"
def StateStringStopped : StateString := "stopped"
def StateStringPaused : StateString := "paused"
def StateStringResumed : StateString := "resumed"
def StateStringCompleted : StateString := "completed"
def StateStringFailed : StateString := "failed"
def StateStringTerminated : StateString := "terminated"

structure StatesManStateChange (D : Type) where
  SystemName : String
  FromState : StateString
  ToState : StateString
  Timestamp : Int
  Data : D
deriving DecidableEq

structure StatesMan (D : Type) where
  Name : String
  AvailableStates : List StateString
  LoggedStates : List (StatesManStateChange D)
  CurrentStates : List (String × StateString)

/-- Source `NewStatesMan`: the fixed vocabulary of eight recognized state
tokens, an empty log and an empty current-state table. -/
def NewStatesMan (D : Type) (name : String) : StatesMan D :=
  { Name := name
    AvailableStates := [StateStringCreated, StateStringStarted, StateStringStopped,
      StateStringPaused, StateStringResumed, StateStringCompleted,
      StateStringFailed, StateStringTerminated]
    LoggedStates := []
    CurrentStates := [] }

/-- Source `AddStateChange`: appends the record to the log and points the
current-state table entry for `systemName` at `toState`.  No validation of
the state arguments is performed. -/
def StatesMan.AddStateChange {D : Type} (s : StatesMan D) (systemName : String)
    (fromState toState : StateString) (timestamp : Int) (data : D) : StatesMan D :=
  { s with
    LoggedStates := s.LoggedStates
      ++ [⟨systemName, fromState, toState, timestamp, data⟩]
    CurrentStates := goSet systemName toState s.CurrentStates }

/-- Source `GetState`: a Go map read `s.CurrentStates[systemName]`, whose
zero value for a missing key is the empty string `StateStringEmpty`. -/
def StatesMan.GetState {D : Type} (s : StatesMan D) (systemName : String) : StateString :=
  (goGet systemName s.CurrentStates).getD StateStringEmpty

def StatesMan.GetStateChangesForSystem {D : Type} (s : StatesMan D)
    (systemName : String) : List (StatesManStateChange D) :=
  s.LoggedStates.filter (fun change => decide (change.SystemName = systemName))

/-- Loop body of `GetFilteredStateChanges`: a record survives all the
`continue` guards exactly when every provided filter matches it. -/
def keptByFilters {D : Type} (systemName : Option String)
    (fromState toState : Option StateString) (sinceTs untilTs : Option Int)
    (change : StatesManStateChange D) : Bool :=
  (match systemName with
   | none => true
   | some n => decide (change.SystemName = n)) &&
  (match fromState with
   | none => true
   | some f => decide (change.FromState = f)) &&
  (match toState with
   | none => true
   | some t => decide (change.ToState = t)) &&
  (match sinceTs with
   | none => true
   | some t => decide (¬ change.Timestamp < t)) &&
  (match untilTs with
   | none => true
   | some t => decide (¬ change.Timestamp > t))

def StatesMan.GetFilteredStateChanges {D : Type} (s : StatesMan D)
    (systemName : Option String) (fromState toState : Option StateString)
    (sinceTs untilTs : Option Int) : List (StatesManStateChange D) :=
  s.LoggedStates.filter (keptByFilters systemName fromState toState sinceTs untilTs)

/-- Loop body of `PruneStateChanges`: the same survive-the-guards test on
the name and timestamp filters. -/
def keptByPrune {D : Type} (systemName : Option String)
    (sinceTs untilTs : Option Int) (change : StatesManStateChange D) : Bool :=
  (match systemName with
   | none => true
   | some n => decide (change.SystemName = n)) &&
  (match sinceTs with
   | none => true
   | some t => decide (¬ change.Timestamp < t)) &&
  (match untilTs with
   | none => true
   | some t => decide (¬ change.Timestamp > t))

/-- Source `PruneStateChanges`: collects the records that match all the
provided filters and assigns that collection back to `LoggedStates`, so the
matching records are the ones retained. -/
def StatesMan.PruneStateChanges {D : Type} (s : StatesMan D)
    (systemName : Option String) (sinceTs untilTs : Option Int) : StatesMan D :=
  { s with LoggedStates :=
      s.LoggedStates.filter (keptByPrune systemName sinceTs untilTs) }

/-- Source `CheckState`: scans `AvailableStates` for the given token; the
`systemName` argument is never consulted. -/
def StatesMan.CheckState {D : Type} (s : StatesMan D) (systemName : String)
    (state : StateString) : Bool :=
  s.AvailableStates.any (fun availableState => decide (state = availableState))

/-- Source `CheckStates`: `CheckState` on every entry of the map, false as
soon as one fails. -/
def StatesMan.CheckStates {D : Type} (s : StatesMan D)
    (states : List (String × StateString)) : Bool :=
  states.all (fun p => s.CheckState p.1 p.2)

/-! ### Sequences of state-log mutations

`AddStateChange` and `PruneStateChanges` are the only operations that
mutate a `StatesMan`; the queries are pure. -/

inductive SMOp (D : Type) where
  | add (systemName : String) (fromState toState : StateString)
      (timestamp : Int) (data : D)
  | prune (systemName : Option String) (sinceTs untilTs : Option Int)

def SMOp.run {D : Type} (s : StatesMan D) : SMOp D → StatesMan D
  | .add systemName fromState toState timestamp data =>
      s.AddStateChange systemName fromState toState timestamp data
  | .prune systemName sinceTs untilTs =>
      s.PruneStateChanges systemName sinceTs untilTs

def runSMOps {D : Type} (s : StatesMan D) (ops : List (SMOp D)) : StatesMan D :=
  ops.foldl (fun t op => SMOp.run t op) s

/-! ### The current-state table invariant -/

/-- To-state of the last `add` operation for `name` in an operation
history, or the empty sentinel when the history records none. -/
def lastRecordedState {D : Type} (name : String) (ops : List (SMOp D)) : StateString :=
  ops.foldl (fun cur op =>
    match op with
    | .add n _ toState _ _ => if n = name then toState else cur
    | .prune _ _ _ => cur) StateStringEmpty

theorem GetState_SMOp_run {D : Type} (s : StatesMan D) (op : SMOp D) (name : String) :
    (SMOp.run s op).GetState name =
      match op with
      | .add n _ toState _ _ => if n = name then toState else s.GetState name
      | .prune _ _ _ => s.GetState name := by
  cases op with
  | add n f toState ts d =>
    unfold SMOp.run StatesMan.AddStateChange StatesMan.GetState
    dsimp only
    by_cases h : n = name
    · subst h
      rw [goGet_goSet_self]
      simp
    · rw [goGet_goSet_ne name n toState s.CurrentStates h, if_neg h]
  | prune n sinceTs untilTs => rfl

theorem GetState_runSMOps {D : Type} (name : String) :
    ∀ (ops : List (SMOp D)) (s : StatesMan D),
      (runSMOps s ops).GetState name =
        ops.foldl (fun cur op =>
          match op with
          | .add n _ toState _ _ => if n = name then toState else cur
          | .prune _ _ _ => cur) (s.GetState name) := by
  intro ops
  induction ops with
  | nil => intro s; rfl
  | cons op rest ih =>
    intro s
    have hstep : runSMOps s (op :: rest) = runSMOps (SMOp.run s op) rest := rfl
    rw [hstep, ih (SMOp.run s op), GetState_SMOp_run, List.foldl_cons]

/-- C5: over every sequence of log operations, `GetState` returns the
to-state of the latest recorded state change for the subsystem (each
`AddStateChange` points the table at its `toState` argument), and the
empty-state sentinel when no change was ever recorded for it. -/
theorem GetState_eq_lastRecordedState {D : Type} (nm : String)
    (ops : List (SMOp D)) (name : String) :
    (runSMOps (NewStatesMan D nm) ops).GetState name = lastRecordedState name ops := by
  rw [GetState_runSMOps]
  rfl

/-! ### CheckState is vocabulary membership -/

/-- The fixed recognized vocabulary of eight state tokens. -/
def recognizedStates : List StateString :=
  [StateStringCreated, StateStringStarted, StateStringStopped, StateStringPaused,
    StateStringResumed, StateStringCompleted, StateStringFailed, StateStringTerminated]

theorem AvailableStates_SMOp_run {D : Type} (s : StatesMan D) (op : SMOp D) :
    (SMOp.run s op).AvailableStates = s.AvailableStates := by
  cases op <;> rfl

theorem AvailableStates_runSMOps {D : Type} :
    ∀ (ops : List (SMOp D)) (s : StatesMan D),
      (runSMOps s ops).AvailableStates = s.AvailableStates := by
  intro ops
  induction ops with
  | nil => intro s; rfl
  | cons op rest ih =>
    intro s
    have hstep : runSMOps s (op :: rest) = runSMOps (SMOp.run s op) rest := rfl
    rw [hstep, ih (SMOp.run s op), AvailableStates_SMOp_run]

theorem CheckState_eq_mem_AvailableStates {D : Type} (s : StatesMan D)
    (name : String) (state : StateString) :
    s.CheckState name state = true ↔ state ∈ s.AvailableStates := by
  unfold StatesMan.CheckState
  simp [List.any_eq_true]

/-- C6: `CheckState(name, s)` is true exactly when `s` belongs to the fixed
eight-token vocabulary, independent of the subsystem's current state, and
`CheckStates(m)` is true exactly when every entry of `m` passes
`CheckState` (so it is vacuously true on the empty map). -/
theorem CheckState_is_vocabulary_membership {D : Type} (nm : String)
    (ops : List (SMOp D)) (name : String) (state : StateString)
    (states : List (String × StateString)) :
    ((runSMOps (NewStatesMan D nm) ops).CheckState name state = true
      ↔ state ∈ recognizedStates) ∧
    ((runSMOps (NewStatesMan D nm) ops).CheckStates states = true
      ↔ ∀ p ∈ states,
          (runSMOps (NewStatesMan D nm) ops).CheckState p.1 p.2 = true) ∧
    (runSMOps (NewStatesMan D nm) ops).CheckStates [] = true := by
  have hav : (runSMOps (NewStatesMan D nm) ops).AvailableStates = recognizedStates := by
    rw [AvailableStates_runSMOps]
    rfl
  refine ⟨?_, ?_, rfl⟩
  · rw [CheckState_eq_mem_AvailableStates, hav]
  · unfold StatesMan.CheckStates
    simp [List.all_eq_true]

/-! ### Filtering on toState only -/

/-- C7: with only the `toState` filter provided (set to "completed"),
`GetFilteredStateChanges` returns exactly the records of the log whose
`ToState` equals "completed", as a filter of the log in append order. -/
theorem GetFilteredStateChanges_toState_completed {D : Type} (sm : StatesMan D) :
    sm.GetFilteredStateChanges none none (some StateStringCompleted) none none
      = sm.LoggedStates.filter
          (fun change => decide (change.ToState = StateStringCompleted)) := by
  unfold StatesMan.GetFilteredStateChanges
  apply List.filter_congr
  intro change _
  simp [keptByFilters]

/-! ### AddStateChange performs no validation -/

/-- C10: `AddStateChange` accepts a to-state outside the recognized
vocabulary: the record is appended, `GetState` then returns that token,
and `CheckState` on it is false. -/
theorem AddStateChange_no_validation {D : Type} (nm : String)
    (ops : List (SMOp D)) (name : String) (fromState state : StateString)
    (ts : Int) (d : D) (h : state ∉ recognizedStates) :
    ((runSMOps (NewStatesMan D nm) ops).AddStateChange name fromState state ts d).GetState
        name = state ∧
    ((runSMOps (NewStatesMan D nm) ops).AddStateChange name fromState state ts d).LoggedStates
      = (runSMOps (NewStatesMan D nm) ops).LoggedStates
          ++ [⟨name, fromState, state, ts, d⟩] ∧
    ((runSMOps (NewStatesMan D nm) ops).AddStateChange name fromState state ts d).CheckState
        name state = false := by
  refine ⟨?_, rfl, ?_⟩
  · unfold StatesMan.AddStateChange StatesMan.GetState
    dsimp only
    rw [goGet_goSet_self]
    rfl
  · have hav : ((runSMOps (NewStatesMan D nm) ops).AddStateChange name fromState
        state ts d).AvailableStates = recognizedStates := by
      have h1 : ((runSMOps (NewStatesMan D nm) ops).AddStateChange name fromState
          state ts d).AvailableStates
        = (runSMOps (NewStatesMan D nm) ops).AvailableStates := rfl
      rw [h1, AvailableStates_runSMOps]
      rfl
    rcases hb : ((runSMOps (NewStatesMan D nm) ops).AddStateChange name fromState
        state ts d).CheckState name state with _ | _
    · rfl
    · exfalso
      have hmem := (CheckState_eq_mem_AvailableStates _ name state).mp hb
      rw [hav] at hmem
      exact h hmem

theorem AddStateChange_no_validation_witness :
    ("bogus" : StateString) ∉ recognizedStates ∧
    (((runSMOps (NewStatesMan Unit "m") []).AddStateChange "w" StateStringEmpty
        "bogus" 0 ()).GetState "w" = "bogus" ∧
     ((runSMOps (NewStatesMan Unit "m") []).AddStateChange "w" StateStringEmpty
        "bogus" 0 ()).LoggedStates
       = (runSMOps (NewStatesMan Unit "m") []).LoggedStates
           ++ [⟨"w", StateStringEmpty, "bogus", 0, ()⟩] ∧
     ((runSMOps (NewStatesMan Unit "m") []).AddStateChange "w" StateStringEmpty
        "bogus" 0 ()).CheckState "w" "bogus" = false) :=
  ⟨by decide,
    @AddStateChange_no_validation Unit "m" [] "w" StateStringEmpty "bogus" 0 ()
      (by decide)⟩

/-! ### Prune keeps the matched records -/

def c1Manager : StatesMan Unit :=
  ((NewStatesMan Unit "mgr").AddStateChange "X" StateStringEmpty StateStringCreated
    0 ()).AddStateChange "Y" StateStringEmpty StateStringCreated 1 ()

/-- C1 at a concrete input: with one record for subsystem "X" and one for
"Y", `PruneStateChanges(subsystemName="X")` keeps the "X" record (so
`GetStateChangesForSystem("X")` is not empty) and deletes the "Y" record
that was present before — the source assigns the matched set back to the
log instead of removing it. -/
theorem PruneStateChanges_keeps_matched_at_input :
    (c1Manager.PruneStateChanges (some "X") none none).GetStateChangesForSystem "X"
      = [⟨"X", StateStringEmpty, StateStringCreated, 0, ()⟩] ∧
    c1Manager.GetStateChangesForSystem "Y"
      = [⟨"Y", StateStringEmpty, StateStringCreated, 1, ()⟩] ∧
    (c1Manager.PruneStateChanges (some "X") none none).GetStateChangesForSystem "Y"
      = [] := by
  refine ⟨rfl, rfl, rfl⟩

end GoNuts
